import Mathlib

/-!
Verification of the feedhandler core of the Scratch repository against its
natural-language specification.

The C++ sources are shallowly embedded as executable Lean definitions:

* `FastNumberParser.fast_atoi` / `fast_atof_fixed`
  (include/parser/fast_number_parser.hpp).  C++ `int` / `int64_t`
  arithmetic is modelled on `Int` with explicit two's-complement
  wrapping (`wrap32` / `wrap64`); signed overflow is undefined behaviour
  in C++, and the wrap model records the behaviour of the usual
  two's-complement hardware the code runs on.
* `FSMFixParser` (src/parser/fsm_fix_parser.cpp): the per-character
  state machine `process_char`, the driver `parse`, and the
  `TickBuilder`.  The builder's 64-byte symbol slot is modelled as a
  64-element character list that is overwritten in place, so that
  `string_view`s into it (borrowed symbols of emitted ticks) can be
  resolved against any later parser state, exactly as a dangling
  pointer would read the current contents.
* `common::Tick` (include/common/tick.hpp): the emitted record.  Its
  `symbol` member is a `std::string_view`; it is modelled by `SymRef`,
  which records which buffer the view points into (the FSM builder
  slot, the caller's immutable message buffer, or the tick's own
  inline storage) together with the view's length.  `double` price
  arithmetic (`double_to_price`, `parse_accumulated_double`) is
  modelled by exact rational arithmetic; at every concrete input used
  in a theorem below all intermediate IEEE-754 values are exactly
  representable (or the accumulated relative error is < 0.5 ulp of
  the final integer), so the rational model agrees with the machine
  for the quantities stated.
* `ReceiveBuffer` (src/net/receive_buffer.cpp).
* `RepeatingGroupParser` (src/parser/repeating_group_parser.cpp).

Timestamps (`current_timestamp_ns`) read the wall clock and are not
modelled; no claim refers to them.
-/

set_option maxRecDepth 100000

namespace Feedhandler

/-! ## Machine-integer wrapping -/

/-- Two's-complement wrap of a mathematical integer into `int32_t`. -/
def wrap32 (n : Int) : Int :=
  (n + 2147483648) % 4294967296 - 2147483648

/-- Two's-complement wrap of a mathematical integer into `int64_t`. -/
def wrap64 (n : Int) : Int :=
  (n + 9223372036854775808) % 18446744073709551616 - 9223372036854775808

/-! ## FastNumberParser (include/parser/fast_number_parser.hpp) -/

/-- `FastNumberParser::is_digit`: ASCII `'0'`–`'9'`. -/
def is_digit (c : Char) : Bool :=
  48 ≤ c.toNat && c.toNat ≤ 57

/-- `FastNumberParser::digit_to_int`: `c - '0'`. -/
def digit_to_int (c : Char) : Int :=
  (c.toNat : Int) - 48

namespace FastNumberParser

/-- The accumulation loop of `fast_atoi`: while the next character is a
digit, first check the saturation guard `result > INT32_MAX / 10`, then
accumulate `result * 10 + digit` in `int` arithmetic (wrapped);
at the first non-digit or at the end return `negative ? -result : result`. -/
def atoiLoop : List Char → Int → Bool → Int
  | [], result, negative =>
      if negative then wrap32 (-result) else result
  | c :: cs, result, negative =>
      if is_digit c then
        if result > 214748364 then
          if negative then -2147483648 else 2147483647
        else
          atoiLoop cs (wrap32 (result * 10 + digit_to_int c)) negative
      else
        if negative then wrap32 (-result) else result

/-- `FastNumberParser::fast_atoi` on a character range. -/
def fast_atoi (s : List Char) : Int :=
  match s with
  | [] => 0
  | c :: cs =>
      if c = '-' then
        match cs with
        | [] => 0
        | _ => atoiLoop cs 0 true
      else if c = '+' then
        match cs with
        | [] => 0
        | _ => atoiLoop cs 0 false
      else
        atoiLoop s 0 false

/-- Integer-part loop of `fast_atof_fixed`: accumulate digits in
`int64_t` arithmetic (wrapped), returning the accumulator and the
unconsumed rest of the input. -/
def atofIntLoop : List Char → Int → Int × List Char
  | [], acc => (acc, [])
  | c :: cs, acc =>
      if is_digit c then atofIntLoop cs (wrap64 (acc * 10 + digit_to_int c))
      else (acc, c :: cs)

/-- Fractional-part loop of `fast_atof_fixed`: accumulate digits while
`fractional_scale < scale`, tracking `fractional_scale`. -/
def atofFracLoop (scale : Int) : List Char → Int → Int → Int × Int
  | [], frac, fscale => (frac, fscale)
  | c :: cs, frac, fscale =>
      if is_digit c ∧ fscale < scale then
        atofFracLoop scale cs (wrap64 (frac * 10 + digit_to_int c)) (wrap64 (fscale * 10))
      else
        (frac, fscale)

/-- The body of `fast_atof_fixed` after sign handling: scan the
integer part, then (after a `'.'`) the fractional part, and combine as
`integer_part * scale + fractional_part * (scale / fractional_scale)`
in `int64_t` arithmetic. -/
def atofBody (rest : List Char) (scale : Int) : Int :=
  let ir := atofIntLoop rest 0
  let fr :=
    match ir.2 with
    | '.' :: cs2 => atofFracLoop scale cs2 0 1
    | _ => ((0 : Int), (1 : Int))
  wrap64 (wrap64 (ir.1 * scale) + wrap64 (fr.1 * (scale.tdiv fr.2)))

/-- `FastNumberParser::fast_atof_fixed` on a character range: handle
the optional sign (empty or sign-only input returns 0), then run
`atofBody` and negate (`return negative ? -result : result`, in
`int64_t` arithmetic) if a `'-'` was seen. -/
def fast_atof_fixed (s : List Char) (scale : Int) : Int :=
  match s with
  | [] => 0
  | c :: rest0 =>
      if c = '-' then
        if rest0 = [] then 0 else wrap64 (-(atofBody rest0 scale))
      else if c = '+' then
        if rest0 = [] then 0 else atofBody rest0 scale
      else
        atofBody (c :: rest0) scale

end FastNumberParser

/-- The mathematical (unwrapped) value of a digit string accumulated
decimally on top of `acc` — the idealised meaning of the scanning
loops, used to state the specification formulas. -/
def digitsValFrom (acc : Int) (ds : List Char) : Int :=
  ds.foldl (fun a c => a * 10 + digit_to_int c) acc

/-- The mathematical value of a digit string. -/
def digitsVal (ds : List Char) : Int :=
  digitsValFrom 0 ds

/-! ## common::Tick (include/common/tick.hpp) -/

/-- The buffer a `Tick`'s `symbol` string_view points into, together
with what the view denotes.

* `builder len`: a view of `len` bytes into the FSM's
  `tick_builder_.symbol_storage` (parser-internal scratch, mutated by
  later messages);
* `msg content`: a view into the caller's immutable message buffer,
  identified by the bytes it covers (the buffer never changes during a
  `RepeatingGroupParser` call);
* `own len`: a view of `len` bytes into the tick's own
  `symbol_storage_` (set only by `Tick::copy_symbol`). -/
inductive SymRef
  | builder (len : Nat)
  | msg (content : List Char)
  | own (len : Nat)
  deriving DecidableEq, Repr

/-- Length of the string_view (`symbol.size()` / `symbol.empty()`). -/
def SymRef.len : SymRef → Nat
  | .builder l => l
  | .msg content => content.length
  | .own l => l

/-- `common::Tick`.  `timestamp` (wall clock) is not modelled. -/
structure Tick where
  symbol : SymRef
  price : Int
  qty : Int
  side : Char
  symbol_storage : List Char
  owns_symbol : Bool
  deriving DecidableEq, Repr

/-- `Tick::is_valid`. -/
def Tick.is_valid (t : Tick) : Bool :=
  t.symbol.len != 0 && t.price > 0 && t.qty > 0 &&
    (t.side == 'B' || t.side == 'S')

/-- `Tick::copy_symbol`: copy (at most 63 bytes of) the source view into
the tick's own inline buffer and mark the tick owning.  Present in the
source but never called by `FSMFixParser::parse`. -/
def Tick.copy_symbol (t : Tick) (src : List Char) : Tick :=
  let len := min src.length 63
  { t with
    symbol_storage := (src.take len ++ ['\x00'] ++ t.symbol_storage.drop (len + 1)).take 64
    symbol := .own len
    owns_symbol := true }

/-- `common::fix_side_to_char`: FIX tag 54 value → side char
(1 → 'B', 2 → 'S', otherwise the invalid sentinel `'\0'`). -/
def fix_side_to_char (fix_side : Int) : Char :=
  if fix_side = 1 then 'B' else if fix_side = 2 then 'S' else '\x00'

/-- `common::double_to_price`: `static_cast<int64_t>(price * 10000.0 + 0.5)`.

In the FSM's price path the `double` argument is always
`parse_accumulated_double`'s result, the real number `num / 10000`;
this model represents that value exactly by its numerator `num` over
the fixed denominator 10000 (see `parse_accumulated_double`).  Then
`price * 10000.0 + 0.5 = num + 1/2 = (2·num + 1) / 2` in exact
arithmetic, and the C++ cast truncates toward zero (`Int.tdiv`).
Exactness with respect to IEEE-754: for `|num| ≤ 2⁵¹` the absolute
rounding error of `num / 10000.0 * 10000.0` is at most
`|num| · 2⁻⁵²⁺¹ < 1/2`, so the truncated integer coincides with this
exact model at every such input. -/
def double_to_price (price_num10000 : Int) : Int :=
  (2 * price_num10000 + 1).tdiv 2

/-! ## FSMFixParser (src/parser/fsm_fix_parser.cpp) -/

namespace FSMFixParser

/-- `FSMFixParser::State`. -/
inductive State
  | WAIT_TAG
  | READ_TAG
  | WAIT_VALUE
  | READ_VALUE
  | COMPLETE
  deriving DecidableEq, Repr

/-- `FSMFixParser::TickBuilder`.  `symbol_storage` models the `char[64]`
slot as a 64-element list whose prefix is overwritten by `memcpy`; it is
NOT cleared by `reset`, exactly as in the source (where it is not even
initialised by the constructor — the model starts it at zero bytes,
which are never read before being written). -/
structure TickBuilder where
  symbol_storage : List Char
  symbol_length : Nat
  price : Int
  qty : Int
  side : Char
  has_symbol : Bool
  has_price : Bool
  has_qty : Bool
  has_side : Bool
  deriving DecidableEq, Repr

/-- `TickBuilder::TickBuilder()`. -/
def TickBuilder.init : TickBuilder where
  symbol_storage := List.replicate 64 '\x00'
  symbol_length := 0
  price := 0
  qty := 0
  side := '\x00'
  has_symbol := false
  has_price := false
  has_qty := false
  has_side := false

/-- `TickBuilder::reset`: rewinds everything except the storage bytes. -/
def TickBuilder.reset (b : TickBuilder) : TickBuilder :=
  { b with
    symbol_length := 0
    price := 0
    qty := 0
    side := '\x00'
    has_symbol := false
    has_price := false
    has_qty := false
    has_side := false }

/-- `TickBuilder::is_valid`: presence of the four required fields (and
nothing else — no range or sentinel checks). -/
def TickBuilder.is_valid (b : TickBuilder) : Bool :=
  b.has_symbol && b.has_price && b.has_qty && b.has_side

/-- The whole mutable state of one `FSMFixParser` instance.
`value_buffer` and `tag_buffer` hold the accumulated bytes
(`value_length_` / `tag_length_` are their lengths). -/
structure FSMState where
  state : State
  current_tag : Int
  value_buffer : List Char
  tag_buffer : List Char
  builder : TickBuilder
  deriving DecidableEq, Repr

/-- `FSMFixParser::FSMFixParser()` / `reset()`. -/
def FSMState.init : FSMState where
  state := .WAIT_TAG
  current_tag := 0
  value_buffer := []
  tag_buffer := []
  builder := .init

/-- The delimiter test of `process_char`'s `READ_VALUE` case:
`c == '|' || c == '\x01' || c == '\n' || c == '\r'`. -/
def is_delim (c : Char) : Bool :=
  c == '|' || c == '\x01' || c == '\n' || c == '\r'

/-- `FSMFixParser::parse_accumulated_double`: fixed-point scan of the
value buffer followed by `static_cast<double>(fixed) / 10000.0`.  The
resulting `double` denotes the real number `fixed / 10000`; the model
carries its exact numerator `fixed` over the implicit denominator
10000 (consumed by `double_to_price`). -/
def parse_accumulated_double (value_buffer : List Char) : Int :=
  FastNumberParser.fast_atof_fixed value_buffer 10000

/-- The tag switch executed when a delimiter ends a value in
`READ_VALUE` (tags 38, 44, 54, 55 mutate the builder; tag 10 is handled
by the caller; all other tags are ignored). -/
def commit_field (b : TickBuilder) (tag : Int) (value : List Char) : TickBuilder :=
  if tag = 38 then
    { b with qty := FastNumberParser.fast_atoi value, has_qty := true }
  else if tag = 44 then
    { b with price := double_to_price (parse_accumulated_double value)
             has_price := true }
  else if tag = 54 then
    { b with side := fix_side_to_char (FastNumberParser.fast_atoi value)
             has_side := true }
  else if tag = 55 then
    if value.length < 64 then
      { b with symbol_storage := (value ++ b.symbol_storage.drop value.length).take 64
               symbol_length := value.length
               has_symbol := true }
    else b
  else b

/-- The `READ_VALUE` case of `process_char` (also reached from
`WAIT_VALUE` by fallthrough, which first sets the state to
`READ_VALUE`). -/
def processValue (st0 : FSMState) (c : Char) : FSMState × Bool :=
  let st := { st0 with state := State.READ_VALUE }
  if is_delim c then
    if st.current_tag = 10 then
      ({ st with state := .COMPLETE, current_tag := 0 }, true)
    else
      let b := commit_field st.builder st.current_tag st.value_buffer
      let st := { st with builder := b, current_tag := 0, value_buffer := []
                          state := .WAIT_TAG }
      if c = '\n' ∧ b.is_valid then
        ({ st with state := .COMPLETE }, true)
      else
        (st, false)
  else
    if st.value_buffer.length < 255 then
      ({ st with value_buffer := st.value_buffer ++ [c] }, false)
    else
      (st, false)

/-- `FSMFixParser::process_char`: returns the new state and whether a
message completed. -/
def process_char (st : FSMState) (c : Char) : FSMState × Bool :=
  match st.state with
  | .WAIT_TAG =>
      if is_digit c then
        ({ st with tag_buffer := [c], state := .READ_TAG }, false)
      else
        (st, false)
  | .READ_TAG =>
      if is_digit c then
        if st.tag_buffer.length < 15 then
          ({ st with tag_buffer := st.tag_buffer ++ [c] }, false)
        else
          (st, false)
      else if c = '=' then
        ({ st with current_tag := FastNumberParser.fast_atoi st.tag_buffer
                   value_buffer := []
                   state := .READ_VALUE }, false)
      else
        ({ st with state := .WAIT_TAG, current_tag := 0, tag_buffer := [] }, false)
  | .WAIT_VALUE => processValue st c
  | .READ_VALUE => processValue st c
  | .COMPLETE =>
      if is_digit c then
        ({ st with state := .READ_TAG, current_tag := 0, tag_buffer := [c] }, false)
      else
        ({ st with state := .WAIT_TAG, current_tag := 0 }, false)

/-- The tick constructed by `parse` when a message completes with a
valid builder: `tick.symbol = tick_builder_.get_symbol()` is a
string_view into the builder's symbol slot; `copy_symbol` is not
called, so the default-constructed `owns_symbol_ = false` and the
zeroed inline storage are pushed unchanged (the vector's copy of the
tick keeps the borrowed view, per `Tick`'s copy constructor). -/
def mk_tick (b : TickBuilder) : Tick where
  symbol := .builder b.symbol_length
  price := b.price
  qty := b.qty
  side := b.side
  symbol_storage := List.replicate 64 '\x00'
  owns_symbol := false

/-- One iteration of the loop in `FSMFixParser::parse`: feed one
character, and on completion run `finalize_message` (which resets the
state to `WAIT_TAG`), push the tick if the builder is valid, and reset
the builder. -/
def parseChar (st : FSMState) (c : Char) : FSMState × List Tick :=
  let pr := process_char st c
  if pr.2 then
    let st2 := { pr.1 with state := State.WAIT_TAG }
    let out := if st2.builder.is_valid then [mk_tick st2.builder] else []
    ({ st2 with builder := st2.builder.reset }, out)
  else
    (pr.1, [])

/-- `FSMFixParser::parse`: feed a byte slice, returning the final parser
state and the ticks pushed to the output vector, in order.  (The C++
return value — bytes consumed — always equals the input length.) -/
def parse (st : FSMState) (input : List Char) : FSMState × List Tick :=
  match input with
  | [] => (st, [])
  | c :: cs =>
      let r1 := parseChar st c
      let r2 := parse r1.1 cs
      (r2.1, r1.2 ++ r2.2)

/-- Read an emitted tick's symbol string_view against a parser state:
a borrowed view into the builder slot yields whatever that slot
currently holds. -/
def resolveSymbol (t : Tick) (st : FSMState) : List Char :=
  match t.symbol with
  | .builder len => st.builder.symbol_storage.take len
  | .msg content => content
  | .own len => t.symbol_storage.take len

/-- Successive `parse` calls on a list of byte slices, accumulating the
emitted ticks — the claim's fragmented-delivery pattern. -/
def parseChunks (st : FSMState) : List (List Char) → FSMState × List Tick
  | [] => (st, [])
  | chunk :: rest =>
      let r1 := parse st chunk
      let r2 := parseChunks r1.1 rest
      (r2.1, r1.2 ++ r2.2)

/-! ### Syntactic FIX messages

To state claims that quantify over "messages in which a given tag
(never) appears", messages are represented syntactically as lists of
tag/value fields, each rendered as `tag=value` followed by one
delimiter byte. -/

/-- A syntactic FIX field: tag digits and value bytes. -/
structure MsgField where
  tag : List Char
  value : List Char
  deriving DecidableEq, Repr

/-- A well-formed field: a non-empty all-digit tag of at most 15
digits (so the 16-byte tag scratch never truncates it) and a value
free of delimiter bytes. -/
def WfField (f : MsgField) : Prop :=
  f.tag ≠ [] ∧ f.tag.length ≤ 15 ∧ (∀ c ∈ f.tag, is_digit c = true) ∧
    ∀ c ∈ f.value, is_delim c = false

/-- Render one field on the wire: `tag=value` plus a delimiter. -/
def renderField (f : MsgField) (d : Char) : List Char :=
  f.tag ++ '=' :: (f.value ++ [d])

/-- Render a message: the concatenation of its rendered fields. -/
def renderMsg : List (MsgField × Char) → List Char
  | [] => []
  | (f, d) :: rest => renderField f d ++ renderMsg rest

/-- The value accumulated in the 256-byte value scratch after feeding
`vs` on top of `buf` (appends are dropped once 255 bytes are held). -/
def accValue (buf : List Char) (vs : List Char) : List Char :=
  vs.foldl (fun b c => if b.length < 255 then b ++ [c] else b) buf

/-- The tag digits accumulated in the 16-byte tag scratch after
feeding `ds` on top of `pre`. -/
def accTag (pre : List Char) (ds : List Char) : List Char :=
  ds.foldl (fun t c => if t.length < 15 then t ++ [c] else t) pre

/-- The builder presence flag selected by a required tag
(55 → symbol, 44 → price, 38 → qty, 54 → side). -/
def flagOf (tag : Int) (b : TickBuilder) : Bool :=
  if tag = 55 then b.has_symbol
  else if tag = 44 then b.has_price
  else if tag = 38 then b.has_qty
  else if tag = 54 then b.has_side
  else true

/-- Net effect of one well-formed rendered field on the builder,
together with the ticks it makes `parse` emit: tag 10 completes the
message (emitting iff the builder is valid, then resetting it); other
tags commit, and a `'\n'` delimiter additionally completes when the
updated builder is valid. -/
def fieldStep (b : TickBuilder) (f : MsgField) (d : Char) : TickBuilder × List Tick :=
  let t := FastNumberParser.fast_atoi f.tag
  let v := accValue [] f.value
  if t = 10 then
    (b.reset, if b.is_valid then [mk_tick b] else [])
  else
    let b' := commit_field b t v
    if d = '\n' ∧ b'.is_valid then (b'.reset, [mk_tick b']) else (b', [])

/-- `fieldStep` folded over a whole syntactic message. -/
def msgSteps (b : TickBuilder) : List (MsgField × Char) → TickBuilder × List Tick
  | [] => (b, [])
  | (f, d) :: rest =>
      let r1 := fieldStep b f d
      let r2 := msgSteps r1.1 rest
      (r2.1, r1.2 ++ r2.2)

end FSMFixParser

/-! ## ReceiveBuffer (src/net/receive_buffer.cpp) -/

/-- `net::ReceiveBuffer`: an 8192-byte array with a write cursor and a
read cursor.  `buffer` always has length 8192. -/
structure ReceiveBuffer where
  buffer : List Char
  write_pos : Nat
  read_pos : Nat
  deriving DecidableEq, Repr

namespace ReceiveBuffer

/-- `ReceiveBuffer::ReceiveBuffer()`: zeroed storage, both cursors 0. -/
def init : ReceiveBuffer where
  buffer := List.replicate 8192 '\x00'
  write_pos := 0
  read_pos := 0

/-- `ReceiveBuffer::write`: copy `min(len, BUFFER_SIZE - write_pos)`
bytes after the write cursor; returns the new buffer and the number of
bytes written. -/
def write (rb : ReceiveBuffer) (data : List Char) : ReceiveBuffer × Nat :=
  let available := 8192 - rb.write_pos
  let to_write := min data.length available
  if 0 < to_write then
    ({ rb with
        buffer := rb.buffer.take rb.write_pos ++ data.take to_write
                    ++ rb.buffer.drop (rb.write_pos + to_write)
        write_pos := rb.write_pos + to_write }, to_write)
  else
    (rb, to_write)

/-- `ReceiveBuffer::readable_bytes`. -/
def readable_bytes (rb : ReceiveBuffer) : Nat :=
  rb.write_pos - rb.read_pos

/-- `ReceiveBuffer::consume`: advance the read cursor by
`min(len, readable_bytes)`; if it then exceeds half the capacity, move
the remaining readable bytes down to offset 0 (`memmove`) and rewind
both cursors. -/
def consume (rb : ReceiveBuffer) (len : Nat) : ReceiveBuffer :=
  let rp := rb.read_pos + min len (readable_bytes rb)
  if rp > 4096 then
    let remaining := rb.write_pos - rp
    let buf :=
      if 0 < remaining then
        (rb.buffer.drop rp).take remaining ++ rb.buffer.drop remaining
      else rb.buffer
    { buffer := buf, write_pos := remaining, read_pos := 0 }
  else
    { rb with read_pos := rp }

/-- The interaction pattern of the claim: repeatedly `write` a chunk
and then `consume` exactly the number of bytes that `write` reported.
Returns the final buffer and each `write`'s return value, in order. -/
def runPairs (rb : ReceiveBuffer) : List (List Char) → ReceiveBuffer × List Nat
  | [] => (rb, [])
  | c :: cs =>
      let w := write rb c
      let rb2 := consume w.1 w.2
      let r := runPairs rb2 cs
      (r.1, w.2 :: r.2)

end ReceiveBuffer

/-! ## RepeatingGroupParser (src/parser/repeating_group_parser.cpp) -/

namespace RepeatingGroupParser

/-- `RepeatingGroupParser::Field`: a tag with a string_view value (the
view into the immutable message is modelled by its content). -/
structure Field where
  tag : Int
  value : List Char
  deriving DecidableEq, Repr

/-- Split the message at every `'|'` (the only delimiter
`extract_all_fields` looks for).  The accumulator holds the current
segment in reverse. -/
def splitSegsAux : List Char → List Char → List (List Char)
  | [], acc => [acc.reverse]
  | c :: cs, acc =>
      if c = '|' then acc.reverse :: splitSegsAux cs []
      else splitSegsAux cs (c :: acc)

/-- The `'|'`-separated segments of the message.  (For the empty
message this yields one empty segment where the C++ loop runs zero
iterations; an empty segment never produces a field, so
`extract_all_fields` is unaffected.) -/
def splitSegs (s : List Char) : List (List Char) :=
  splitSegsAux s []

/-- Scan a segment for its first `'='`: the tag part before it and
(if present) the value part after it. -/
def splitEq : List Char → List Char × Option (List Char)
  | [] => ([], none)
  | c :: cs =>
      if c = '=' then ([], some cs)
      else
        let r := splitEq cs
        (c :: r.1, r.2)

/-- The per-segment acceptance test of `extract_all_fields`: a
non-empty segment containing `'='` after a non-empty prefix whose
`fast_atoi` value is positive yields a field. -/
def segField (seg : List Char) : Option Field :=
  if seg = [] then none
  else
    let sp := splitEq seg
    match sp.2 with
    | none => none
    | some v =>
        if sp.1 = [] then none
        else
          let tag := FastNumberParser.fast_atoi sp.1
          if 0 < tag then some ⟨tag, v⟩ else none

/-- The scanning loop of `RepeatingGroupParser::extract_all_fields`:
`while (ptr < end && field_count < max_fields)` — process one
`'|'`-separated segment per iteration, accepting it per `segField`. -/
def extractSegsLoop : List (List Char) → Nat → Nat → List Field
  | [], _, _ => []
  | seg :: rest, field_count, max_fields =>
      if field_count < max_fields then
        match segField seg with
        | some f => f :: extractSegsLoop rest (field_count + 1) max_fields
        | none => extractSegsLoop rest field_count max_fields
      else []

/-- `RepeatingGroupParser::extract_all_fields` (capacity-capped). -/
def extract_all_fields (message : List Char) (max_fields : Nat) : List Field :=
  extractSegsLoop (splitSegs message) 0 max_fields

/-- `RepeatingGroupParser::find_first_field`: first field with the
given tag, if any. -/
def find_first_field (fields : List Field) (tag : Int) : Option Field :=
  fields.find? (fun f => f.tag == tag)

/-- Loop of `find_all_fields`: collect indices of fields with the given
tag while fewer than `max_indices` have been collected. -/
def findAllLoop (tag : Int) (max_indices : Nat) :
    List Field → Nat → Nat → List Nat
  | [], _, _ => []
  | f :: fs, i, count =>
      if count < max_indices then
        if f.tag = tag then i :: findAllLoop tag max_indices fs (i + 1) (count + 1)
        else findAllLoop tag max_indices fs (i + 1) count
      else []

/-- `RepeatingGroupParser::find_all_fields`. -/
def find_all_fields (fields : List Field) (tag : Int) (max_indices : Nat) : List Nat :=
  findAllLoop tag max_indices fields 0 0

/-- The MDEntryType (tag 269) → side mapping used in both paths of
`parse_repeating_groups`: `0 → 'B'`, `1 → 'S'`, anything else → `'T'`. -/
def entry_type_to_side (entry_type : Int) : Char :=
  if entry_type = 0 then 'B' else if entry_type = 1 then 'S' else 'T'

/-- The tick built for repeating-group entry `i` (body of the
`for (i = 0; i < entry_count; ++i)` loop, before the validity check). -/
def entryTick (fields : List Field) (symbol : List Char)
    (type_indices price_indices size_indices : List Nat) (i : Nat) : Tick where
  symbol := .msg symbol
  price := FastNumberParser.fast_atof_fixed (fields.getD (price_indices.getD i 0) ⟨0, []⟩).value 10000
  qty := FastNumberParser.fast_atoi (fields.getD (size_indices.getD i 0) ⟨0, []⟩).value
  side := entry_type_to_side (FastNumberParser.fast_atoi (fields.getD (type_indices.getD i 0) ⟨0, []⟩).value)
  symbol_storage := List.replicate 64 '\x00'
  owns_symbol := false

/-- `RepeatingGroupParser::parse_repeating_groups`. -/
def parse_repeating_groups (message : List Char) : List Tick :=
  let fields := extract_all_fields message 128
  let symbol : List Char :=
    match find_first_field fields 55 with
    | some f => f.value
    | none => []
  let n1 : Int :=
    match find_first_field fields 268 with
    | some f => FastNumberParser.fast_atoi f.value
    | none => 0
  let num_entries : Int :=
    if n1 = 0 then ((find_all_fields fields 269 32).length : Int) else n1
  if num_entries = 0 then
    let price : Int :=
      match find_first_field fields 44 with
      | some f => FastNumberParser.fast_atof_fixed f.value 10000
      | none =>
        match find_first_field fields 270 with
        | some f => FastNumberParser.fast_atof_fixed f.value 10000
        | none => 0
    let qty : Int :=
      match find_first_field fields 38 with
      | some f => FastNumberParser.fast_atoi f.value
      | none =>
        match find_first_field fields 271 with
        | some f => FastNumberParser.fast_atoi f.value
        | none => 0
    let side : Char :=
      match find_first_field fields 54 with
      | some f => fix_side_to_char (FastNumberParser.fast_atoi f.value)
      | none =>
        match find_first_field fields 269 with
        | some f => entry_type_to_side (FastNumberParser.fast_atoi f.value)
        | none => '\x00'
    let tick : Tick :=
      { symbol := .msg symbol, price := price, qty := qty, side := side
        symbol_storage := List.replicate 64 '\x00', owns_symbol := false }
    if tick.is_valid then [tick] else []
  else
    let type_indices := find_all_fields fields 269 32
    let price_indices := find_all_fields fields 270 32
    let size_indices := find_all_fields fields 271 32
    let entry_count := min type_indices.length (min price_indices.length size_indices.length)
    (List.range entry_count).foldl
      (fun acc i =>
        let tick := entryTick fields symbol type_indices price_indices size_indices i
        if tick.is_valid then acc ++ [tick] else acc)
      []

end RepeatingGroupParser

end Feedhandler


namespace Feedhandler

/-! ## Helper lemmas -/

theorem wrap64_eq_self {n : Int} (h1 : -9223372036854775808 ≤ n)
    (h2 : n < 9223372036854775808) : wrap64 n = n := by
  unfold wrap64
  rw [Int.emod_eq_of_lt (by omega) (by omega)]
  omega

theorem tdiv_two_round (n : Int) : (2 * n + 1).tdiv 2 = if 0 ≤ n then n else n + 1 := by
  rcases n with m | m
  · rw [if_pos (by exact Int.ofNat_nonneg m)]
    show Int.tdiv (2 * Int.ofNat m + 1) 2 = Int.ofNat m
    have h : (2 * Int.ofNat m + 1) = Int.ofNat (2 * m + 1) := by simp
    rw [h]
    show Int.ofNat ((2 * m + 1) / 2) = Int.ofNat m
    congr 1
    omega
  · rw [if_neg (by simp [Int.negSucc_eq]; omega)]
    have h : (2 * Int.negSucc m + 1) = Int.negSucc (2 * m) := by
      simp [Int.negSucc_eq]; ring
    rw [h]
    show -Int.ofNat ((2 * m + 1) / 2) = Int.negSucc m + 1
    have h2 : (2 * m + 1) / 2 = m := by omega
    rw [h2]
    simp [Int.negSucc_eq]

theorem tdiv_eq_ediv_of_nonneg {a b : Int} (ha : 0 ≤ a) (hb : 0 ≤ b) :
    a.tdiv b = a / b := by
  rcases a with m | m
  · rcases b with n | n
    · rfl
    · exact absurd hb (by simp [Int.negSucc_eq]; omega)
  · exact absurd ha (by simp [Int.negSucc_eq]; omega)

namespace FSMFixParser

/-- `parse` distributes over concatenation: parsing `s1 ++ s2` equals
parsing `s1`, then parsing `s2` from the resulting state, with the two
tick sequences appended. -/
theorem parse_append (s1 s2 : List Char) (st : FSMState) :
    parse st (s1 ++ s2)
      = ((parse (parse st s1).1 s2).1, (parse st s1).2 ++ (parse (parse st s1).1 s2).2) := by
  induction s1 generalizing st with
  | nil => simp [parse]
  | cons c cs ih =>
      simp only [List.cons_append, parse, List.append_eq]
      rw [ih]
      simp [List.append_assoc]

end FSMFixParser

end Feedhandler

/-! ## Claim C10 -/

namespace Feedhandler

theorem tick_is_valid_side {t : Tick} (h : t.is_valid = true) :
    t.side = 'B' ∨ t.side = 'S' := by
  simp only [Tick.is_valid, Bool.and_eq_true, Bool.or_eq_true, beq_iff_eq] at h
  exact h.2

theorem mem_foldl_push_valid {β : Type} (g : β → Tick) :
    ∀ (l : List β) (acc : List Tick) (t : Tick),
      t ∈ l.foldl (fun a b => if (g b).is_valid = true then a ++ [g b] else a) acc →
      t ∈ acc ∨ ∃ b, t = g b ∧ (g b).is_valid = true := by
  intro l
  induction l with
  | nil => exact fun acc t h => Or.inl h
  | cons b bs ih =>
      intro acc t h
      simp only [List.foldl_cons] at h
      rcases ih _ t h with hmem | hex
      · by_cases hv : (g b).is_valid = true
        · rw [if_pos hv] at hmem
          rcases List.mem_append.mp hmem with h1 | h1
          · exact Or.inl h1
          · exact Or.inr ⟨b, by simpa using h1, hv⟩
        · rw [if_neg hv] at hmem
          exact Or.inl hmem
      · exact Or.inr hex

open RepeatingGroupParser in
/-- C10: `parse_repeating_groups` never returns a tick whose side is
`'T'`: every candidate tick is filtered through `Tick::is_valid`
before being pushed, and validity requires side `'B'` or `'S'`, so
trade entries (MDEntryType values mapping to `'T'`) are always
dropped. -/
theorem repeating_groups_never_return_trade_side (message : List Char) (t : Tick)
    (ht : t ∈ parse_repeating_groups message) : t.side ≠ 'T' := by
  have hside : t.side = 'B' ∨ t.side = 'S' := by
    simp only [parse_repeating_groups] at ht
    split at ht
    all_goals try split at ht
    all_goals try split at ht
    all_goals
      first
      | exact absurd ht (List.not_mem_nil t)
      | (rw [List.mem_singleton] at ht
         subst ht
         exact tick_is_valid_side (by assumption))
      | (rcases mem_foldl_push_valid _ _ _ _ ht with hmem | ⟨b, hb, hv⟩
         · exact absurd hmem (List.not_mem_nil t)
         · exact hb ▸ tick_is_valid_side hv)
  rcases hside with h | h <;> simp [h]

open RepeatingGroupParser in
/-- Witness for `repeating_groups_never_return_trade_side`: the bid
tick returned for a concrete snapshot message. -/
theorem repeating_groups_never_return_trade_side_witness :
    ({ symbol := SymRef.msg ("A".toList), price := 50000, qty := 7, side := 'B',
       symbol_storage := List.replicate 64 '\x00', owns_symbol := false } : Tick)
      ∈ parse_repeating_groups ("55=A|269=0|270=5|271=7".toList) ∧
    ({ symbol := SymRef.msg ("A".toList), price := 50000, qty := 7, side := 'B',
       symbol_storage := List.replicate 64 '\x00', owns_symbol := false } : Tick).side
      ≠ 'T' := by
  constructor
  · decide
  · exact repeating_groups_never_return_trade_side ("55=A|269=0|270=5|271=7".toList) _ (by decide)

end Feedhandler

/-! ## Claim C9 (amended) -/

namespace Feedhandler

namespace RepeatingGroupParser

theorem splitSegsAux_no_pipe : ∀ (s acc : List Char), '|' ∉ s →
    splitSegsAux s acc = [acc.reverse ++ s] := by
  intro s
  induction s with
  | nil => intro acc _; simp [splitSegsAux]
  | cons c cs ih =>
      intro acc h
      have hc : ¬ c = '|' := fun e => h (e ▸ List.mem_cons_self c cs)
      rw [splitSegsAux, if_neg hc, ih (c :: acc) (fun hm => h (List.mem_cons_of_mem _ hm))]
      simp

end RepeatingGroupParser

open RepeatingGroupParser in
/-- C9 (amended): only `'|'` acts as a field separator in
`extract_all_fields`; SOH, newline and carriage return are ordinary
value bytes.  Consequently a message containing no `'|'` yields at
most one extracted field, no matter how many of the FSM's other
delimiters it contains — the claimed delimiter-replacement
equivalence with §4.3 fails. -/
theorem extract_all_fields_splits_only_on_pipe (message : List Char)
    (h : '|' ∉ message) :
    (extract_all_fields message 128).length ≤ 1 := by
  unfold extract_all_fields splitSegs
  rw [splitSegsAux_no_pipe message [] h]
  simp only [List.reverse_nil, List.nil_append, extractSegsLoop]
  split
  · split
    · simp [extractSegsLoop]
    · simp [extractSegsLoop]
  · simp

open RepeatingGroupParser in
/-- Witness for `extract_all_fields_splits_only_on_pipe` at the SOH
rendering of a snapshot message. -/
theorem extract_all_fields_splits_only_on_pipe_witness :
    '|' ∉ ("55=A\x01269=0\x01270=5\x01271=7".toList) ∧
    (extract_all_fields ("55=A\x01269=0\x01270=5\x01271=7".toList) 128).length ≤ 1 :=
  ⟨by decide, extract_all_fields_splits_only_on_pipe _ (by decide)⟩

end Feedhandler

/-! ## Claim C7 -/

namespace Feedhandler

namespace ReceiveBuffer

theorem init_write_pos : ReceiveBuffer.init.write_pos = 0 := rfl

theorem init_read_pos : ReceiveBuffer.init.read_pos = 0 := rfl

theorem write_snd (rb : ReceiveBuffer) (data : List Char) :
    (write rb data).2 = min data.length (8192 - rb.write_pos) := by
  simp only [write]
  split <;> rfl

theorem write_fst_write_pos (rb : ReceiveBuffer) (data : List Char) :
    (write rb data).1.write_pos = rb.write_pos + (write rb data).2 := by
  simp only [write]
  split
  · rfl
  · next hn =>
      rw [Nat.not_lt, Nat.le_zero] at hn
      show rb.write_pos = rb.write_pos + min data.length (8192 - rb.write_pos)
      omega

theorem write_fst_read_pos (rb : ReceiveBuffer) (data : List Char) :
    (write rb data).1.read_pos = rb.read_pos := by
  simp only [write]
  split <;> rfl

theorem consume_read_pos (rb : ReceiveBuffer) (len : Nat) :
    (consume rb len).read_pos =
      if rb.read_pos + min len (rb.write_pos - rb.read_pos) > 4096 then 0
      else rb.read_pos + min len (rb.write_pos - rb.read_pos) := by
  simp only [consume, readable_bytes]
  split <;> rfl

theorem consume_write_pos (rb : ReceiveBuffer) (len : Nat) :
    (consume rb len).write_pos =
      if rb.read_pos + min len (rb.write_pos - rb.read_pos) > 4096 then
        rb.write_pos - (rb.read_pos + min len (rb.write_pos - rb.read_pos))
      else rb.write_pos := by
  simp only [consume, readable_bytes]
  split <;> rfl

end ReceiveBuffer

open ReceiveBuffer in
/-- C7 (amended): starting from the empty buffer, every
`write(chunk); consume(written)` pair accepts its whole chunk provided
each chunk is at most HALF the capacity (4096 bytes) — the bound
`≤ capacity` claimed by the spec is wrong, because compaction only
fires when `read_pos > capacity/2`, so a residue of exactly 4096
consumed-but-uncompacted bytes can persist. -/
theorem receive_buffer_halfsize_pairs_never_short_write :
    ∀ (chunks : List (List Char)) (rb : ReceiveBuffer),
      rb.read_pos = rb.write_pos → rb.write_pos ≤ 4096 →
      (∀ c ∈ chunks, c.length ≤ 4096) →
      (runPairs rb chunks).2 = chunks.map List.length := by
  intro chunks
  induction chunks with
  | nil => intro rb _ _ _; simp [runPairs]
  | cons c cs ih =>
      intro rb h1 h2 h3
      have hc : c.length ≤ 4096 := h3 c (List.mem_cons_self c cs)
      have hw2 : (write rb c).2 = c.length := by
        rw [write_snd]; omega
      have hwp : (write rb c).1.write_pos = rb.write_pos + c.length := by
        rw [write_fst_write_pos, hw2]
      have hrp : (write rb c).1.read_pos = rb.write_pos := by
        rw [write_fst_read_pos, h1]
      have hrp2 : (consume (write rb c).1 (write rb c).2).read_pos
          = (consume (write rb c).1 (write rb c).2).write_pos := by
        rw [consume_read_pos, consume_write_pos, hw2, hwp, hrp]
        split <;> omega
      have hwp2 : (consume (write rb c).1 (write rb c).2).write_pos ≤ 4096 := by
        rw [consume_write_pos, hw2, hwp, hrp]
        split <;> omega
      simp only [runPairs, List.map_cons]
      rw [hw2] at hrp2 hwp2 ⊢
      rw [ih _ hrp2 hwp2 (fun d hd => h3 d (List.mem_cons_of_mem _ hd))]

open ReceiveBuffer in
/-- Witness for `receive_buffer_halfsize_pairs_never_short_write`:
two pairs of exactly half capacity each are both fully accepted. -/
theorem receive_buffer_halfsize_pairs_witness :
    ReceiveBuffer.init.read_pos = ReceiveBuffer.init.write_pos ∧
    ReceiveBuffer.init.write_pos ≤ 4096 ∧
    (∀ c ∈ [List.replicate 10 'a', List.replicate 20 'b'], c.length ≤ 4096) ∧
    (runPairs ReceiveBuffer.init [List.replicate 10 'a', List.replicate 20 'b']).2
      = [List.replicate 10 'a', List.replicate 20 'b'].map List.length :=
  ⟨rfl, by decide, by decide,
    receive_buffer_halfsize_pairs_never_short_write _ _ rfl (by decide) (by decide)⟩

open ReceiveBuffer in
/-- C7 counterexample: with the claim's own bound (chunks up to the
full capacity 8192), a short write occurs: after a 4096-byte pair the
read cursor sits exactly at capacity/2 (compaction needs strictly
more), so the following 8192-byte write only accepts 4096 bytes. -/
theorem receive_buffer_capacity_pair_short_writes :
    (runPairs ReceiveBuffer.init [List.replicate 4096 'a', List.replicate 8192 'b']).2
      = [4096, 4096] ∧
    ([List.replicate 4096 'a', List.replicate 8192 'b'].map List.length)
      = [4096, 8192] ∧
    (4096 : Nat) ≠ 8192 := by
  refine ⟨?_, by rw [List.map_cons, List.map_cons, List.map_nil,
    List.length_replicate, List.length_replicate], by decide⟩
  have hw2 : (write ReceiveBuffer.init (List.replicate 4096 'a')).2 = 4096 := by
    rw [write_snd, List.length_replicate, init_write_pos]
    omega
  have hwp : (write ReceiveBuffer.init (List.replicate 4096 'a')).1.write_pos = 4096 := by
    rw [write_fst_write_pos, hw2, init_write_pos]
  have hrp : (write ReceiveBuffer.init (List.replicate 4096 'a')).1.read_pos = 0 := by
    rw [write_fst_read_pos, init_read_pos]
  have hwp2 : (consume (write ReceiveBuffer.init (List.replicate 4096 'a')).1
      (write ReceiveBuffer.init (List.replicate 4096 'a')).2).write_pos = 4096 := by
    rw [consume_write_pos, hw2, hwp, hrp]
    norm_num
  have hsnd : (write (consume (write ReceiveBuffer.init (List.replicate 4096 'a')).1
      (write ReceiveBuffer.init (List.replicate 4096 'a')).2)
      (List.replicate 8192 'b')).2 = 4096 := by
    rw [write_snd, List.length_replicate, hwp2]
    omega
  rw [hw2] at hsnd
  simp only [runPairs, hw2, hsnd]

end Feedhandler

/-! ## Claim C3 -/

namespace Feedhandler

/-! ## Claim C4 -/

/-- C4: the claim that `fast_atoi` clamps every over-`I32_MAX` value to
`I32_MAX` and every under-`I32_MIN` value to `I32_MIN` is wrong at the
boundary: the guard `result > INT32_MAX / 10` is checked before the
next digit is accumulated, so `"2147483648"` (`I32_MAX + 1`) wraps in
two's complement to `I32_MIN` and `"-2147483649"` (`I32_MIN − 1`)
wraps to `I32_MAX`; the spec's own example `"91283472332" → I32_MAX`
(and its negative counterpart) does hold, because there the guard
fires before the wrapping digit. -/
theorem fast_atoi_overflow_boundary_wraps :
    FastNumberParser.fast_atoi ("2147483648".toList) = -2147483648 ∧
    FastNumberParser.fast_atoi ("-2147483649".toList) = 2147483647 ∧
    FastNumberParser.fast_atoi ("91283472332".toList) = 2147483647 ∧
    FastNumberParser.fast_atoi ("-91283472332".toList) = -2147483648 := by
  decide

/-! ## Claim C6 -/

open FSMFixParser in
/-- C6: with garbage recovery disabled, a garbage prefix followed by a
complete valid message does NOT emit zero ticks: `process_char` never
consults the recovery flag, the non-digit garbage bytes are ignored in
`WAIT_TAG`, and the valid message still emits its tick (the input below
is the repository's own `test_recovery_disabled` data, whose expected
count is 0).  The final state is `WAIT_TAG`, as the claim says. -/
theorem fsm_garbage_prefix_still_emits :
    ((parse FSMState.init
        (("GARBAGE8=FIX.4.4|9=79|35=D|55=AAPL|44=150.25|38=500|54=1|"
          ++ "52=20240131-12:34:56|10=020|\n").toList)).2.map
        (fun t => (t.price, t.qty, t.side)))
      = [(1502500, 500, 'B')] ∧
    (parse FSMState.init
        (("GARBAGE8=FIX.4.4|9=79|35=D|55=AAPL|44=150.25|38=500|54=1|"
          ++ "52=20240131-12:34:56|10=020|\n").toList)).1.state = State.WAIT_TAG := by
  decide

/-! ## Claim C2 -/

open FSMFixParser in
/-- C2: the tick emitted by `parse` is NOT owning: `owns_symbol` is
`false` and its symbol is a string_view borrowing the parser's
`TickBuilder` slot — immediately after the first message it reads
`"AAPL"`, but after a second message (`55=MSFT`) overwrites the slot,
the same tick's view reads `"MSFT"`.  `Tick::copy_symbol` (which would
have made the tick owning) is never called on the emission path. -/
theorem fsm_emitted_tick_borrows_builder_slot :
    ((parse FSMState.init
        ("8=FIX.4.4|35=D|55=AAPL|44=150.25|38=500|54=1|10=123|\n".toList)).2.map
        (fun t => (t.owns_symbol,
          resolveSymbol t (parse FSMState.init
            ("8=FIX.4.4|35=D|55=AAPL|44=150.25|38=500|54=1|10=123|\n".toList)).1)))
      = [(false, "AAPL".toList)] ∧
    ((parse FSMState.init
        ("8=FIX.4.4|35=D|55=AAPL|44=150.25|38=500|54=1|10=123|\n".toList)).2.map
        (fun t => resolveSymbol t
          (parse
            (parse FSMState.init
              ("8=FIX.4.4|35=D|55=AAPL|44=150.25|38=500|54=1|10=123|\n".toList)).1
            ("8=FIX.4.4|35=D|55=MSFT|44=200.00|38=100|54=2|10=456|\n".toList)).1))
      = ["MSFT".toList] := by
  decide

/-! ## Claim C1 -/

open FSMFixParser in
/-- C1 counterexample: a message carrying all four required tags but
`38=0` (zero quantity — the claim's own example) and another carrying
`54=9` (side ∉ {1,2}) each DO emit a tick: `TickBuilder::is_valid`
checks only field presence, so the zero-qty tick and the
sentinel-side (`'\0'`) tick are both pushed to the consumer, contrary
to the claim that no tick is emitted. -/
theorem fsm_invalid_field_values_still_emit :
    ((parse FSMState.init
        ("8=FIX.4.4|35=D|55=AAPL|44=150.25|38=0|54=1|10=123|\n".toList)).2.map
        (fun t => (t.qty, t.side)))
      = [(0, 'B')] ∧
    ((parse FSMState.init
        ("8=FIX.4.4|35=D|55=AAPL|44=150.25|38=500|54=9|10=123|\n".toList)).2.map
        (fun t => (t.qty, t.side)))
      = [(500, '\x00')] := by
  decide

/-! ## Claim C5 -/

open FSMFixParser in
/-- C5 counterexample: committing tag 44 with value `"-1"` stores
price −9999, not `fast_atof_fixed "-1" = −10000`: the price passes
through `double` (`parse_accumulated_double`, then
`double_to_price`'s `price * 10000.0 + 0.5` with a truncating cast),
so floating-point arithmetic IS involved and negative prices are
shifted by +1.  (All intermediate doubles here are exactly
representable, so the exact model agrees with IEEE-754.) -/
theorem fsm_price_commit_roundtrip_differs :
    (parse FSMState.init ("44=-1|".toList)).1.builder.price = -9999 ∧
    FastNumberParser.fast_atof_fixed ("-1".toList) 10000 = -10000 ∧
    (parse FSMState.init ("44=-1|".toList)).1.builder.price
      ≠ FastNumberParser.fast_atof_fixed ("-1".toList) 10000 := by
  decide

/-! ## Claim C8 -/

/-- C8 counterexample: `fast_atof_fixed` has no `int64_t` overflow
protection, so the claimed formula
`integer × scale + fractional × (scale / 10^f)` fails once the input
exceeds the `int64_t` range: `"9223372036854775808"` (= 2⁶³) wraps to
0 instead of the formula value 2⁶³ · 10⁴. -/
theorem fast_atof_fixed_int64_overflow :
    FastNumberParser.fast_atof_fixed ("9223372036854775808".toList) 10000 = 0 ∧
    digitsVal ("9223372036854775808".toList) * 10000 = 92233720368547758080000 ∧
    (0 : Int) ≠ 92233720368547758080000 := by
  decide

/-! ## Claim C9 -/

open RepeatingGroupParser in
/-- C9 counterexample: `extract_all_fields` does NOT use the FSM's
delimiter set — only `'|'` separates fields.  The same snapshot message
written with `'|'` yields four fields and one valid bid tick, but
written with SOH (0x01) it collapses to a single field (tag 55 with
the whole rest as its value) and yields no tick at all. -/
theorem repeating_groups_soh_not_delimiter :
    (extract_all_fields ("55=A|269=0|270=5|271=7".toList) 128).length = 4 ∧
    (extract_all_fields ("55=A\x01269=0\x01270=5\x01271=7".toList) 128).length = 1 ∧
    ((parse_repeating_groups ("55=A|269=0|270=5|271=7".toList)).map
        (fun t => (t.price, t.qty, t.side)))
      = [(50000, 7, 'B')] ∧
    parse_repeating_groups ("55=A\x01269=0\x01270=5\x01271=7".toList) = [] := by
  decide

open FSMFixParser in
/-- C3: for every byte stream and every partition of it into slices,
feeding the slices to `FSMFixParser::parse` successively (accumulating
into the same output vector) produces exactly the same final parser
state and the same sequence of emitted ticks — each with the same
symbol view, price, qty and side — as one `parse` call on the whole
stream; in particular every field-commit and tick-emission happens
exactly once, at the same input position, in both runs. -/
theorem fsm_fragmentation_equivalence (chunks : List (List Char)) (st : FSMState) :
    parseChunks st chunks = parse st chunks.flatten := by
  induction chunks generalizing st with
  | nil => simp [parseChunks, parse]
  | cons c cs ih =>
      simp only [parseChunks, List.flatten_cons, parse_append, ih]

end Feedhandler

/-! ## Claim C5 (amended) -/

namespace Feedhandler

open FSMFixParser in
/-- C5 (amended): committing tag 44 sets the builder's price to
`double_to_price(parse_accumulated_double(v))` — a `double` roundtrip —
which equals `fast_atof_fixed v 10⁴` exactly when that fixed value is
non-negative and is one greater when it is negative; floating-point
arithmetic IS involved on the hot path.  (The magnitude bound keeps the
exact rational model faithful to IEEE-754 `double`.) -/
theorem fsm_price_commit_is_double_roundtrip (b : TickBuilder) (v : List Char)
    (hbound : (FastNumberParser.fast_atof_fixed v 10000).natAbs ≤ 2 ^ 51) :
    (commit_field b 44 v).price =
      (if 0 ≤ FastNumberParser.fast_atof_fixed v 10000
       then FastNumberParser.fast_atof_fixed v 10000
       else FastNumberParser.fast_atof_fixed v 10000 + 1) := by
  have h44 : ((44 : Int) = 38) = False := by norm_num
  simp only [commit_field, h44, if_false, if_pos rfl]
  simp only [double_to_price, parse_accumulated_double]
  exact tdiv_two_round _

open FSMFixParser in
/-- Witness for `fsm_price_commit_is_double_roundtrip` at the value
`"-1"`: the committed price is −9999, not −10000. -/
theorem fsm_price_commit_is_double_roundtrip_witness :
    (FastNumberParser.fast_atof_fixed ("-1".toList) 10000).natAbs ≤ 2 ^ 51 ∧
    (commit_field TickBuilder.init 44 ("-1".toList)).price = -9999 :=
  ⟨by decide, by
    rw [fsm_price_commit_is_double_roundtrip _ _ (by decide)]
    decide⟩

end Feedhandler

/-! ## Claim C1 (amended): run lemmas for rendered fields -/

namespace Feedhandler

namespace FSMFixParser

theorem parseChar_wait_digit (c : Char) (hc : is_digit c = true)
    (ct : Int) (vb tb : List Char) (b : TickBuilder) :
    parseChar ⟨State.WAIT_TAG, ct, vb, tb, b⟩ c
      = (⟨State.READ_TAG, ct, vb, [c], b⟩, []) := by
  simp [parseChar, process_char, hc]

theorem parse_tag_run (ds : List Char) :
    ∀ (ct : Int) (vb pre : List Char) (b : TickBuilder),
      (∀ c ∈ ds, is_digit c = true) →
      parse ⟨State.READ_TAG, ct, vb, pre, b⟩ ds
        = (⟨State.READ_TAG, ct, vb, accTag pre ds, b⟩, []) := by
  induction ds with
  | nil => intro ct vb pre b _; simp [parse, accTag]
  | cons c cs ih =>
      intro ct vb pre b h
      have hc : is_digit c = true := h c (List.mem_cons_self _ _)
      have step : parseChar ⟨State.READ_TAG, ct, vb, pre, b⟩ c
          = (⟨State.READ_TAG, ct, vb,
              if pre.length < 15 then pre ++ [c] else pre, b⟩, []) := by
        by_cases hp : pre.length < 15
        · simp [parseChar, process_char, hc, hp]
        · simp [parseChar, process_char, hc, hp]
      simp only [parse, step]
      rw [ih ct vb _ b (fun d hd => h d (List.mem_cons_of_mem _ hd))]
      simp [accTag]

theorem accTag_of_short : ∀ (ds pre : List Char), pre.length + ds.length ≤ 15 →
    accTag pre ds = pre ++ ds := by
  intro ds
  induction ds with
  | nil => intro pre _; simp [accTag]
  | cons c cs ih =>
      intro pre h
      simp only [List.length_cons] at h
      have hlt : pre.length < 15 := by omega
      show accTag pre (c :: cs) = pre ++ c :: cs
      have h1 : accTag pre (c :: cs) = accTag (pre ++ [c]) cs := by
        simp [accTag, hlt]
      rw [h1, ih (pre ++ [c]) (by simp; omega)]
      simp

theorem parse_value_run (vs : List Char) :
    ∀ (ct : Int) (vb tb : List Char) (b : TickBuilder),
      (∀ c ∈ vs, is_delim c = false) →
      parse ⟨State.READ_VALUE, ct, vb, tb, b⟩ vs
        = (⟨State.READ_VALUE, ct, accValue vb vs, tb, b⟩, []) := by
  induction vs with
  | nil => intro ct vb tb b _; simp [parse, accValue]
  | cons c cs ih =>
      intro ct vb tb b h
      have hc : is_delim c = false := h c (List.mem_cons_self _ _)
      have step : parseChar ⟨State.READ_VALUE, ct, vb, tb, b⟩ c
          = (⟨State.READ_VALUE, ct,
              if vb.length < 255 then vb ++ [c] else vb, tb, b⟩, []) := by
        by_cases hp : vb.length < 255
        · simp [parseChar, process_char, processValue, hc, hp]
        · simp [parseChar, process_char, processValue, hc, hp]
      simp only [parse, step]
      rw [ih ct _ tb b (fun d hd => h d (List.mem_cons_of_mem _ hd))]
      simp [accValue]

theorem parseChar_eq_sign (ct : Int) (vb tb : List Char) (b : TickBuilder) :
    parseChar ⟨State.READ_TAG, ct, vb, tb, b⟩ '='
      = (⟨State.READ_VALUE, FastNumberParser.fast_atoi tb, [], tb, b⟩, []) := by
  have hd : is_digit '=' = false := by decide
  simp [parseChar, process_char, hd]

theorem parseChar_delim_checksum (d : Char) (vb tb : List Char) (b : TickBuilder)
    (hd : is_delim d = true) :
    parseChar ⟨State.READ_VALUE, 10, vb, tb, b⟩ d
      = (⟨State.WAIT_TAG, 0, vb, tb, b.reset⟩,
         if b.is_valid then [mk_tick b] else []) := by
  simp [parseChar, process_char, processValue, hd]

theorem parseChar_delim_commit (d : Char) (ct : Int) (vb tb : List Char) (b : TickBuilder)
    (hd : is_delim d = true) (h10 : ct ≠ 10) :
    parseChar ⟨State.READ_VALUE, ct, vb, tb, b⟩ d
      = (if d = '\n' ∧ (commit_field b ct vb).is_valid = true
         then (⟨State.WAIT_TAG, 0, [], tb, (commit_field b ct vb).reset⟩,
               [mk_tick (commit_field b ct vb)])
         else (⟨State.WAIT_TAG, 0, [], tb, commit_field b ct vb⟩, [])) := by
  have hdl : is_delim '\n' = true := by decide
  by_cases hnl : d = '\n' ∧ (commit_field b ct vb).is_valid = true
  · rw [if_pos hnl]
    obtain ⟨hdeq, hvalid⟩ := hnl
    subst hdeq
    simp [parseChar, process_char, processValue, hdl, h10, hvalid]
  · rw [if_neg hnl]
    simp [parseChar, process_char, processValue, hd, h10, hnl]

theorem parse_field_run (f : MsgField) (d : Char) (ct : Int) (vb tb : List Char)
    (b : TickBuilder) (hwf : WfField f) (hd : is_delim d = true) :
    ∃ ct' vb' tb', parse ⟨State.WAIT_TAG, ct, vb, tb, b⟩ (renderField f d)
      = (⟨State.WAIT_TAG, ct', vb', tb', (fieldStep b f d).1⟩, (fieldStep b f d).2) := by
  obtain ⟨hne, hlen, hdig, hval⟩ := hwf
  obtain ⟨c0, rest, htag⟩ : ∃ c0 rest, f.tag = c0 :: rest := by
    cases h : f.tag with
    | nil => exact absurd h hne
    | cons a as => exact ⟨a, as, rfl⟩
  have htagrun : parse ⟨State.WAIT_TAG, ct, vb, tb, b⟩ f.tag
      = (⟨State.READ_TAG, ct, vb, f.tag, b⟩, []) := by
    rw [htag]
    simp only [parse, parseChar_wait_digit c0 (hdig c0 (htag ▸ List.mem_cons_self _ _)) ct vb tb b]
    rw [parse_tag_run rest ct vb [c0] b
      (fun x hx => hdig x (htag ▸ List.mem_cons_of_mem _ hx))]
    rw [accTag_of_short rest [c0] (by
      have := hlen; rw [htag] at this; simp at this ⊢; omega)]
    simp
  have hvalrun : parse ⟨State.READ_VALUE, FastNumberParser.fast_atoi f.tag, [], f.tag, b⟩ f.value
      = (⟨State.READ_VALUE, FastNumberParser.fast_atoi f.tag, accValue [] f.value, f.tag, b⟩, []) :=
    parse_value_run f.value _ [] f.tag b hval
  have hrender : renderField f d = f.tag ++ ('=' :: (f.value ++ [d])) := by
    simp [renderField]
  rw [hrender, parse_append, htagrun]
  simp only [parse, parseChar_eq_sign]
  rw [parse_append, hvalrun]
  simp only [parse]
  by_cases h10 : FastNumberParser.fast_atoi f.tag = 10
  · rw [h10]
    rw [parseChar_delim_checksum d _ f.tag b hd]
    refine ⟨0, accValue [] f.value, f.tag, ?_⟩
    simp [fieldStep, h10]
  · rw [parseChar_delim_commit d _ _ f.tag b hd h10]
    by_cases hnl : d = '\n' ∧ (commit_field b (FastNumberParser.fast_atoi f.tag)
        (accValue [] f.value)).is_valid = true
    · rw [if_pos hnl]
      refine ⟨0, [], f.tag, ?_⟩
      simp [fieldStep, h10, hnl]
    · rw [if_neg hnl]
      refine ⟨0, [], f.tag, ?_⟩
      simp [fieldStep, h10, hnl]

theorem parse_msg_run : ∀ (msg : List (MsgField × Char)) (ct : Int) (vb tb : List Char)
    (b : TickBuilder),
    (∀ fd ∈ msg, WfField fd.1 ∧ is_delim fd.2 = true) →
    ∃ ct' vb' tb', parse ⟨State.WAIT_TAG, ct, vb, tb, b⟩ (renderMsg msg)
      = (⟨State.WAIT_TAG, ct', vb', tb', (msgSteps b msg).1⟩, (msgSteps b msg).2) := by
  intro msg
  induction msg with
  | nil =>
      intro ct vb tb b _
      exact ⟨ct, vb, tb, by simp [parse, renderMsg, msgSteps]⟩
  | cons fd rest ih =>
      intro ct vb tb b h
      obtain ⟨f, d⟩ := fd
      obtain ⟨hwf, hd⟩ := h (f, d) (List.mem_cons_self _ _)
      obtain ⟨ct1, vb1, tb1, hfield⟩ := parse_field_run f d ct vb tb b hwf hd
      obtain ⟨ct2, vb2, tb2, hrest⟩ :=
        ih ct1 vb1 tb1 (fieldStep b f d).1 (fun g hg => h g (List.mem_cons_of_mem _ hg))
      refine ⟨ct2, vb2, tb2, ?_⟩
      show parse ⟨State.WAIT_TAG, ct, vb, tb, b⟩ (renderField f d ++ renderMsg rest) = _
      rw [parse_append, hfield]
      simp only
      rw [hrest]
      simp [msgSteps]

end FSMFixParser

end Feedhandler

/-! ## Claim C1 (amended): missing-tag invariant -/

namespace Feedhandler

namespace FSMFixParser

theorem flag_false_not_valid {tag : Int} {b : TickBuilder}
    (htag : tag ∈ ([55, 44, 38, 54] : List Int)) (h : flagOf tag b = false) :
    b.is_valid = false := by
  simp only [List.mem_cons, List.not_mem_nil, or_false] at htag
  rcases htag with h5 | h4 | h3 | h54 <;> subst_vars <;>
    simp [flagOf] at h <;> simp [TickBuilder.is_valid, h]

theorem flag_reset {tag : Int} (htag : tag ∈ ([55, 44, 38, 54] : List Int))
    (b : TickBuilder) : flagOf tag b.reset = false := by
  simp only [List.mem_cons, List.not_mem_nil, or_false] at htag
  rcases htag with h5 | h4 | h3 | h54 <;> subst_vars <;>
    simp [flagOf, TickBuilder.reset]

theorem commit_field_has_symbol (b : TickBuilder) (t : Int) (v : List Char)
    (h : ¬ t = 55) : (commit_field b t v).has_symbol = b.has_symbol := by
  unfold commit_field
  split_ifs <;> rfl

theorem commit_field_has_price (b : TickBuilder) (t : Int) (v : List Char)
    (h : ¬ t = 44) : (commit_field b t v).has_price = b.has_price := by
  unfold commit_field
  split_ifs <;> rfl

theorem commit_field_has_qty (b : TickBuilder) (t : Int) (v : List Char)
    (h : ¬ t = 38) : (commit_field b t v).has_qty = b.has_qty := by
  unfold commit_field
  split_ifs <;> rfl

theorem commit_field_has_side (b : TickBuilder) (t : Int) (v : List Char)
    (h : ¬ t = 54) : (commit_field b t v).has_side = b.has_side := by
  unfold commit_field
  split_ifs <;> rfl

theorem commit_field_flag {tag t : Int} (htag : tag ∈ ([55, 44, 38, 54] : List Int))
    (b : TickBuilder) (v : List Char) (hne : t ≠ tag) :
    flagOf tag (commit_field b t v) = flagOf tag b := by
  simp only [List.mem_cons, List.not_mem_nil, or_false] at htag
  rcases htag with h | h | h | h <;> subst h
  · simp [flagOf, commit_field_has_symbol b t v hne]
  · simp [flagOf, commit_field_has_price b t v hne]
  · simp [flagOf, commit_field_has_qty b t v hne]
  · simp [flagOf, commit_field_has_side b t v hne]

theorem fieldStep_missing {tag : Int} (htag : tag ∈ ([55, 44, 38, 54] : List Int))
    (b : TickBuilder) (f : MsgField) (d : Char)
    (hne : FastNumberParser.fast_atoi f.tag ≠ tag) (hflag : flagOf tag b = false) :
    flagOf tag (fieldStep b f d).1 = false ∧ (fieldStep b f d).2 = [] := by
  unfold fieldStep
  by_cases h10 : FastNumberParser.fast_atoi f.tag = 10
  · rw [flag_false_not_valid htag hflag]
    simp [h10, flag_reset htag]
  · have hc := commit_field_flag htag b (accValue [] f.value) hne
    have hv : (commit_field b (FastNumberParser.fast_atoi f.tag)
        (accValue [] f.value)).is_valid = false :=
      flag_false_not_valid htag (hc.trans hflag)
    simp [h10, hv, hc, hflag]

theorem msgSteps_missing {tag : Int} (htag : tag ∈ ([55, 44, 38, 54] : List Int)) :
    ∀ (msg : List (MsgField × Char)) (b : TickBuilder),
      flagOf tag b = false →
      (∀ fd ∈ msg, FastNumberParser.fast_atoi fd.1.tag ≠ tag) →
      (msgSteps b msg).2 = [] ∧ flagOf tag (msgSteps b msg).1 = false := by
  intro msg
  induction msg with
  | nil => intro b hb _; simp [msgSteps, hb]
  | cons fd rest ih =>
      intro b hb hmiss
      obtain ⟨f, d⟩ := fd
      obtain ⟨hflag1, hout1⟩ :=
        fieldStep_missing htag b f d (hmiss (f, d) (List.mem_cons_self _ _)) hb
      obtain ⟨hout2, hflag2⟩ :=
        ih (fieldStep b f d).1 hflag1 (fun g hg => hmiss g (List.mem_cons_of_mem _ hg))
      simp [msgSteps, hout1, hout2, hflag2]

end FSMFixParser

open FSMFixParser in
/-- C1 (amended): a message in which some required tag of
{55, 44, 38, 54} never appears emits no tick — `TickBuilder::is_valid`
requires all four presence flags, and the missing tag's flag is never
set.  (The value-range half of the original claim is false: messages
carrying all four tags with side ∉ {1,2} or qty = 0 DO emit their —
`Tick::is_valid`-invalid — tick.) -/
theorem fsm_missing_required_tag_emits_no_tick
    (msg : List (MsgField × Char)) (tag : Int)
    (htag : tag ∈ ([55, 44, 38, 54] : List Int))
    (hwf : ∀ fd ∈ msg, WfField fd.1 ∧ is_delim fd.2 = true)
    (hmiss : ∀ fd ∈ msg, FastNumberParser.fast_atoi fd.1.tag ≠ tag) :
    (parse FSMState.init (renderMsg msg)).2 = [] := by
  obtain ⟨ct', vb', tb', h⟩ := parse_msg_run msg 0 [] [] TickBuilder.init hwf
  have hinit : flagOf tag TickBuilder.init = false := by
    simp only [List.mem_cons, List.not_mem_nil, or_false] at htag
    rcases htag with h5 | h4 | h3 | h54 <;> subst_vars <;> simp [flagOf, TickBuilder.init]
  obtain ⟨hout, _⟩ := msgSteps_missing htag msg TickBuilder.init hinit hmiss
  have hinit2 : FSMState.init = ⟨State.WAIT_TAG, 0, [], [], TickBuilder.init⟩ := rfl
  rw [hinit2, h, hout]

open FSMFixParser in
/-- Witness for `fsm_missing_required_tag_emits_no_tick`: a message
with price and checksum fields but no tag 55 emits nothing. -/
theorem fsm_missing_required_tag_emits_no_tick_witness :
    (55 : Int) ∈ ([55, 44, 38, 54] : List Int) ∧
    (∀ fd ∈ [((⟨"44".toList, "1.5".toList⟩ : MsgField), '|'),
             ((⟨"10".toList, "0".toList⟩ : MsgField), '|')],
       WfField fd.1 ∧ is_delim fd.2 = true) ∧
    (∀ fd ∈ [((⟨"44".toList, "1.5".toList⟩ : MsgField), '|'),
             ((⟨"10".toList, "0".toList⟩ : MsgField), '|')],
       FastNumberParser.fast_atoi fd.1.tag ≠ 55) ∧
    (parse FSMState.init
      (renderMsg [((⟨"44".toList, "1.5".toList⟩ : MsgField), '|'),
                  ((⟨"10".toList, "0".toList⟩ : MsgField), '|')])).2 = [] := by
  refine ⟨by decide, ?_, ?_, ?_⟩
  · intro fd hfd
    refine ⟨?_, ?_⟩ <;> fin_cases hfd <;> first | decide | (constructor <;> decide)
  · intro fd hfd
    fin_cases hfd <;> decide
  · exact fsm_missing_required_tag_emits_no_tick _ 55 (by decide)
      (by intro fd hfd; fin_cases hfd <;> exact ⟨by constructor <;> decide, by decide⟩)
      (by intro fd hfd; fin_cases hfd <;> decide)

end Feedhandler

/-! ## Claim C8 (amended): the scan_fixed formula -/

namespace Feedhandler

theorem digit_to_int_bounds {c : Char} (h : is_digit c = true) :
    0 ≤ digit_to_int c ∧ digit_to_int c ≤ 9 := by
  simp only [is_digit, Bool.and_eq_true, decide_eq_true_eq] at h
  unfold digit_to_int
  omega

theorem digitsValFrom_cons (acc : Int) (c : Char) (ds : List Char) :
    digitsValFrom acc (c :: ds) = digitsValFrom (acc * 10 + digit_to_int c) ds := rfl

theorem digitsValFrom_nonneg : ∀ (ds : List Char) (acc : Int), 0 ≤ acc →
    (∀ c ∈ ds, is_digit c = true) → 0 ≤ digitsValFrom acc ds := by
  intro ds
  induction ds with
  | nil => intro acc h _; simpa [digitsValFrom] using h
  | cons c cs ih =>
      intro acc h hd
      rw [digitsValFrom_cons]
      have hb := digit_to_int_bounds (hd c (List.mem_cons_self _ _))
      exact ih _ (by omega) (fun x hx => hd x (List.mem_cons_of_mem _ hx))

theorem digitsValFrom_ge : ∀ (ds : List Char) (acc : Int), 0 ≤ acc →
    (∀ c ∈ ds, is_digit c = true) → acc ≤ digitsValFrom acc ds := by
  intro ds
  induction ds with
  | nil => intro acc _ _; simp [digitsValFrom]
  | cons c cs ih =>
      intro acc h hd
      rw [digitsValFrom_cons]
      have hb := digit_to_int_bounds (hd c (List.mem_cons_self _ _))
      have := ih (acc * 10 + digit_to_int c) (by omega)
        (fun x hx => hd x (List.mem_cons_of_mem _ hx))
      omega

theorem digitsValFrom_lt_pow : ∀ (ds : List Char) (acc : Int), 0 ≤ acc →
    (∀ c ∈ ds, is_digit c = true) →
    digitsValFrom acc ds < (acc + 1) * 10 ^ ds.length := by
  intro ds
  induction ds with
  | nil => intro acc h _; simp [digitsValFrom]
  | cons c cs ih =>
      intro acc h hd
      rw [digitsValFrom_cons]
      have hb := digit_to_int_bounds (hd c (List.mem_cons_self _ _))
      have h1 := ih (acc * 10 + digit_to_int c) (by omega)
        (fun x hx => hd x (List.mem_cons_of_mem _ hx))
      have h2 : ((acc * 10 + digit_to_int c) + 1) * 10 ^ cs.length
          ≤ (acc + 1) * 10 ^ (c :: cs).length := by
        rw [List.length_cons, pow_succ]
        have hp : (0:Int) < 10 ^ cs.length := by positivity
        nlinarith
      omega

namespace FastNumberParser

theorem atofIntLoop_spec : ∀ (ds : List Char) (rest : List Char) (acc : Int),
    (∀ c ∈ ds, is_digit c = true) →
    (∀ c cs, rest = c :: cs → is_digit c = false) →
    0 ≤ acc → digitsValFrom acc ds < 9223372036854775808 →
    atofIntLoop (ds ++ rest) acc = (digitsValFrom acc ds, rest) := by
  intro ds
  induction ds with
  | nil =>
      intro rest acc _ hrest _ _
      cases rest with
      | nil => simp [atofIntLoop, digitsValFrom]
      | cons c cs =>
          simp [atofIntLoop, hrest c cs rfl, digitsValFrom]
  | cons c cs ih =>
      intro rest acc hd hrest hacc hbnd
      have hc : is_digit c = true := hd c (List.mem_cons_self _ _)
      have hb := digit_to_int_bounds hc
      rw [digitsValFrom_cons] at hbnd
      have hacc2 : 0 ≤ acc * 10 + digit_to_int c := by omega
      have hmid : acc * 10 + digit_to_int c ≤ digitsValFrom (acc * 10 + digit_to_int c) cs :=
        digitsValFrom_ge cs _ hacc2 (fun x hx => hd x (List.mem_cons_of_mem _ hx))
      have hwrap : wrap64 (acc * 10 + digit_to_int c) = acc * 10 + digit_to_int c :=
        wrap64_eq_self (by omega) (by omega)
      show atofIntLoop (c :: (cs ++ rest)) acc = _
      rw [atofIntLoop, if_pos hc, hwrap,
        ih rest _ (fun x hx => hd x (List.mem_cons_of_mem _ hx)) hrest hacc2 hbnd,
        digitsValFrom_cons]

theorem atofFracLoop_spec : ∀ (ds : List Char) (frac : Int) (k : Nat),
    (∀ c ∈ ds, is_digit c = true) → k ≤ 4 → 0 ≤ frac → frac < 10 ^ k →
    atofFracLoop 10000 ds frac (10 ^ k)
      = (digitsValFrom frac (ds.take (4 - k)), 10 ^ (k + min (4 - k) ds.length)) := by
  intro ds
  induction ds with
  | nil =>
      intro frac k _ _ _ _
      simp [atofFracLoop, digitsValFrom]
  | cons c cs ih =>
      intro frac k hd hk hf hfk
      have hc : is_digit c = true := hd c (List.mem_cons_self _ _)
      have hb := digit_to_int_bounds hc
      have hpow4 : (10:Int) ^ k ≤ 10 ^ 4 := by
        exact pow_le_pow_right₀ (by norm_num) hk
      by_cases hklt : k < 4
      · have hlt : (10:Int) ^ k < 10000 := by
          have : (10:Int) ^ k ≤ 10 ^ 3 := pow_le_pow_right₀ (by norm_num) (by omega)
          norm_num at this ⊢
          omega
        have hsucc : (10:Int) ^ k * 10 = 10 ^ (k + 1) := by
          rw [pow_succ]
        have hf' : frac * 10 + digit_to_int c < 10 ^ (k + 1) := by
          rw [pow_succ]
          have h4 : (10:Int) ^ k ≤ 10000 := by norm_num at hpow4 ⊢; omega
          nlinarith
        have hwf : wrap64 (frac * 10 + digit_to_int c) = frac * 10 + digit_to_int c := by
          have h1 : frac * 10 + digit_to_int c < 10 ^ (k + 1) := hf'
          have h2 : (10:Int) ^ (k + 1) ≤ 10 ^ 5 := pow_le_pow_right₀ (by norm_num) (by omega)
          refine wrap64_eq_self (by omega) (by norm_num at h2; omega)
        have hws : wrap64 ((10:Int) ^ k * 10) = 10 ^ k * 10 := by
          have hnn : (0:Int) ≤ 10 ^ k * 10 := by positivity
          refine wrap64_eq_self (by omega) ?_
          have h2 : (10:Int) ^ k * 10 = 10 ^ (k+1) := hsucc
          have h3 : (10:Int) ^ (k + 1) ≤ 10 ^ 5 := pow_le_pow_right₀ (by norm_num) (by omega)
          norm_num at h3
          omega
        rw [atofFracLoop, if_pos ⟨hc, hlt⟩, hwf, hws, hsucc,
          ih _ (k + 1) (fun x hx => hd x (List.mem_cons_of_mem _ hx)) (by omega)
            (by omega) hf']
        have htake : (c :: cs).take (4 - k) = c :: cs.take (4 - (k + 1)) := by
          have : 4 - k = (4 - (k + 1)) + 1 := by omega
          rw [this, List.take_succ_cons]
        have hexp : (k + 1) + min (4 - (k + 1)) cs.length
            = k + min (4 - k) (c :: cs).length := by
          rw [List.length_cons]
          omega
        rw [htake, digitsValFrom_cons, hexp]
      · have hk4 : k = 4 := by omega
        subst hk4
        have hnlt : ¬ ((10:Int) ^ 4 < 10000) := by norm_num
        rw [atofFracLoop, if_neg (by
          intro hcontra
          exact hnlt hcontra.2)]
        simp [digitsValFrom]

end FastNumberParser

end Feedhandler




namespace Feedhandler

theorem is_digit_ne_minus {c : Char} (h : is_digit c = true) : ¬ c = '-' := by
  intro he; subst he; simp [is_digit] at h

theorem is_digit_ne_plus {c : Char} (h : is_digit c = true) : ¬ c = '+' := by
  intro he; subst he; simp [is_digit] at h

namespace FastNumberParser

/-- The heart of C8: the post-sign body of `fast_atof_fixed` computes
the specification formula whenever the formula value fits `int64_t`. -/
theorem atofBody_formula (intDs fracDs : List Char) (dot : Bool)
    (hint : ∀ c ∈ intDs, is_digit c = true)
    (hfrac : ∀ c ∈ fracDs, is_digit c = true)
    (hdot : dot = false → fracDs = [])
    (hbound : digitsVal intDs * 10000
        + digitsVal (fracDs.take 4) * (10000 / 10 ^ min 4 fracDs.length)
        < 9223372036854775808) :
    atofBody (intDs ++ (if dot then '.' :: fracDs else [])) 10000
      = digitsVal intDs * 10000
        + digitsVal (fracDs.take 4) * (10000 / 10 ^ min 4 fracDs.length) := by
  have hInn : 0 ≤ digitsVal intDs :=
    digitsValFrom_nonneg intDs 0 le_rfl hint
  have hFnn : 0 ≤ digitsVal (fracDs.take 4) :=
    digitsValFrom_nonneg _ 0 le_rfl (fun c hc => hfrac c (List.mem_of_mem_take hc))
  have hqnn : (0:Int) ≤ 10000 / 10 ^ min 4 fracDs.length :=
    Int.ediv_nonneg (by norm_num) (by positivity)
  have hFq : 0 ≤ digitsVal (fracDs.take 4) * (10000 / 10 ^ min 4 fracDs.length) :=
    mul_nonneg hFnn hqnn
  have hIbnd : digitsVal intDs < 9223372036854775808 := by nlinarith
  have hilp : atofIntLoop (intDs ++ (if dot then '.' :: fracDs else [])) 0
      = (digitsVal intDs, (if dot then '.' :: fracDs else [])) := by
    refine atofIntLoop_spec intDs _ 0 hint ?_ le_rfl hIbnd
    intro c cs heq
    cases dot with
    | false => simp at heq
    | true =>
        rw [if_pos rfl] at heq
        cases heq
        decide
  unfold atofBody
  rw [hilp]
  cases dot with
  | false =>
      have hfe : fracDs = [] := hdot rfl
      subst hfe
      show wrap64 (wrap64 (digitsVal intDs * 10000)
          + wrap64 ((0:Int) * (10000:Int).tdiv 1))
        = digitsVal intDs * 10000
          + digitsVal (List.take 4 ([] : List Char))
            * (10000 / 10 ^ min 4 (List.length ([] : List Char)))
      have h0 : digitsVal (List.take 4 ([] : List Char)) = 0 := rfl
      have hb2 : digitsVal intDs * 10000 < 9223372036854775808 := by
        rw [h0, zero_mul, add_zero] at hbound
        exact hbound
      have w1 : wrap64 (digitsVal intDs * 10000) = digitsVal intDs * 10000 :=
        wrap64_eq_self (by nlinarith) hb2
      have hzz : wrap64 (0:Int) = 0 := by
        norm_num [wrap64]
      simp only [h0, zero_mul, add_zero, hzz, w1]
  | true =>
      have hflp : atofFracLoop 10000 fracDs 0 1
          = (digitsValFrom 0 (fracDs.take 4), 10 ^ min 4 fracDs.length) := by
        have h0 : (1:Int) = 10 ^ (0:Nat) := by norm_num
        rw [h0, atofFracLoop_spec fracDs 0 0 hfrac (by omega) le_rfl (by norm_num)]
        norm_num
      show wrap64 (wrap64 (digitsVal intDs * 10000)
          + wrap64 ((atofFracLoop 10000 fracDs 0 1).1
            * ((10000:Int).tdiv (atofFracLoop 10000 fracDs 0 1).2)))
        = digitsVal intDs * 10000
          + digitsVal (fracDs.take 4) * (10000 / 10 ^ min 4 fracDs.length)
      rw [hflp]
      have htd : (10000:Int).tdiv (10 ^ min 4 fracDs.length)
          = 10000 / 10 ^ min 4 fracDs.length :=
        tdiv_eq_ediv_of_nonneg (by norm_num) (by positivity)
      show wrap64 (wrap64 (digitsVal intDs * 10000)
          + wrap64 (digitsVal (fracDs.take 4)
            * ((10000:Int).tdiv (10 ^ min 4 fracDs.length))))
        = _
      rw [htd]
      have hIs : 0 ≤ digitsVal intDs * 10000 := by nlinarith
      have w1 : wrap64 (digitsVal intDs * 10000) = digitsVal intDs * 10000 :=
        wrap64_eq_self (by omega) (by omega)
      have w2 : wrap64 (digitsVal (fracDs.take 4) * (10000 / 10 ^ min 4 fracDs.length))
          = digitsVal (fracDs.take 4) * (10000 / 10 ^ min 4 fracDs.length) :=
        wrap64_eq_self (by omega) (by omega)
      rw [w1, w2]
      exact wrap64_eq_self (by omega) (by omega)

/-- C8 (amended): on every well-formed input (optional sign, integer
digits, optional `'.'`, fractional digits) whose formula value fits
`int64_t`, `fast_atof_fixed` with scale 10⁴ returns exactly
`±(integer × 10⁴ + fractional × (10⁴ / 10^f))` where `f ≤ 4` is the
number of consumed fractional digits: at most 4 fractional digits are
consumed and further ones are discarded (truncation toward zero, never
rounding).  Inputs whose formula value exceeds the `int64_t` range
wrap instead (the accumulation has no overflow protection). -/
theorem fast_atof_fixed_formula (sgn intDs fracDs : List Char) (dot : Bool)
    (hs : sgn = [] ∨ sgn = ['-'] ∨ sgn = ['+'])
    (hint : ∀ c ∈ intDs, is_digit c = true)
    (hfrac : ∀ c ∈ fracDs, is_digit c = true)
    (hdot : dot = false → fracDs = [])
    (hbound : digitsVal intDs * 10000
        + digitsVal (fracDs.take 4) * (10000 / 10 ^ min 4 fracDs.length)
        < 9223372036854775808) :
    fast_atof_fixed (sgn ++ intDs ++ (if dot then '.' :: fracDs else [])) 10000
      = (if sgn = ['-'] then -1 else 1) *
        (digitsVal intDs * 10000
          + digitsVal (fracDs.take 4) * (10000 / 10 ^ min 4 fracDs.length)) := by
  have hInn : 0 ≤ digitsVal intDs :=
    digitsValFrom_nonneg intDs 0 le_rfl hint
  have hFnn : 0 ≤ digitsVal (fracDs.take 4) :=
    digitsValFrom_nonneg _ 0 le_rfl (fun c hc => hfrac c (List.mem_of_mem_take hc))
  have hqnn : (0:Int) ≤ 10000 / 10 ^ min 4 fracDs.length :=
    Int.ediv_nonneg (by norm_num) (by positivity)
  have htot : 0 ≤ digitsVal intDs * 10000
      + digitsVal (fracDs.take 4) * (10000 / 10 ^ min 4 fracDs.length) := by
    have := mul_nonneg hFnn hqnn
    nlinarith
  have hbody := atofBody_formula intDs fracDs dot hint hfrac hdot hbound
  have hempty : intDs ++ (if dot then '.' :: fracDs else []) = [] →
      intDs = [] ∧ fracDs = [] ∧ dot = false := by
    intro hrest
    cases intDs with
    | cons a as => simp at hrest
    | nil =>
        cases dot with
        | false => exact ⟨rfl, hdot rfl, rfl⟩
        | true => simp at hrest
  rcases hs with hsgn | hsgn | hsgn <;> subst hsgn
  · rw [if_neg (show ¬ (([] : List Char) = ['-']) by simp), List.nil_append]
    cases hrest : intDs ++ (if dot then '.' :: fracDs else []) with
    | nil =>
        obtain ⟨hie, hfe, hde⟩ := hempty hrest
        subst hie; subst hfe; subst hde
        simp [fast_atof_fixed, digitsVal, digitsValFrom]
    | cons c rest =>
        have hcd : is_digit c = true ∨ c = '.' := by
          cases intDs with
          | nil =>
              cases dot with
              | false => simp at hrest
              | true =>
                  rw [List.nil_append, if_pos rfl] at hrest
                  injection hrest with h1 _
                  exact Or.inr h1.symm
          | cons a as =>
              rw [List.cons_append] at hrest
              injection hrest with h1 _
              exact Or.inl (h1 ▸ hint a (List.mem_cons_self _ _))
        have hcm : ¬ c = '-' := by
          rcases hcd with h | h
          · exact is_digit_ne_minus h
          · subst h; decide
        have hcp : ¬ c = '+' := by
          rcases hcd with h | h
          · exact is_digit_ne_plus h
          · subst h; decide
        rw [fast_atof_fixed]
        rw [if_neg hcm, if_neg hcp]
        rw [← hrest, hbody]
        ring
  · rw [if_pos rfl]
    show fast_atof_fixed ('-' :: (intDs ++ (if dot then '.' :: fracDs else []))) 10000 = _
    rw [fast_atof_fixed]
    rw [if_pos (show ('-' : Char) = '-' from rfl)]
    cases hrest : intDs ++ (if dot then '.' :: fracDs else []) with
    | nil =>
        obtain ⟨hie, hfe, hde⟩ := hempty hrest
        subst hie; subst hfe; subst hde
        simp [digitsVal, digitsValFrom]
    | cons c rest =>
        rw [if_neg (show ¬ (c :: rest = []) by simp)]
        rw [← hrest, hbody]
        rw [wrap64_eq_self (by omega) (by omega)]
        ring
  · rw [if_neg (show ¬ ((['+'] : List Char) = ['-']) by simp)]
    show fast_atof_fixed ('+' :: (intDs ++ (if dot then '.' :: fracDs else []))) 10000 = _
    rw [fast_atof_fixed]
    rw [if_neg (show ¬ (('+' : Char) = '-') by decide),
      if_pos (show ('+' : Char) = '+' from rfl)]
    cases hrest : intDs ++ (if dot then '.' :: fracDs else []) with
    | nil =>
        obtain ⟨hie, hfe, hde⟩ := hempty hrest
        subst hie; subst hfe; subst hde
        simp [digitsVal, digitsValFrom]
    | cons c rest =>
        rw [if_neg (show ¬ (c :: rest = []) by simp)]
        rw [← hrest, hbody]
        ring

end FastNumberParser

/-- Witness for `fast_atof_fixed_formula`: the spec's own example
`scan_fixed("123.456789", 10⁴) = 1234567` (truncation after 4
fractional digits). -/
theorem fast_atof_fixed_formula_witness :
    FastNumberParser.fast_atof_fixed ("123.456789".toList) 10000 = 1234567 := by
  have h := FastNumberParser.fast_atof_fixed_formula [] ("123".toList) ("456789".toList) true
    (Or.inl rfl) (by decide) (by decide) (fun hc => absurd hc (by decide)) (by decide)
  rw [show ("123.456789".toList)
      = [] ++ "123".toList ++ (if true then '.' :: "456789".toList else []) from rfl]
  rw [h]
  decide

end Feedhandler
